import Mathlib

/-!
Verification of the RDB to ElastiCache migration tool (src/migrate.py).

The migrator (`ElastiCacheMigrator`) is an RDB-parser callback object: the
external parser invokes `start_database`, `set`, `hset`, `sadd`, `rpush`,
`zadd` while streaming through the dump file.  We embed the callback state
machine faithfully (statistics, current database, dry-run flag, key
prefixing) and model the external pieces — the parser's event stream and
the target store's five write primitives — from the specification, since
they live outside src/.
-/

namespace RdbMig

/-! ### Target store model

Modelled from the spec: the target write protocol (spec section 6) consists of
five operations — set-with-optional-ttl, hash-field-set, set-add-member,
list-append, sorted-set-score-set — each returning success or failure.
Hashes, sets and sorted sets are unordered member maps; lists are ordered.
A write against a key holding a value of an incompatible kind fails and
leaves the store unchanged (the store-side wrong-type failure), mirroring
the exception path that `migrate.py` catches per write. -/

def fempty {α : Type} : String → Option α := fun _ => none

def fupd {α : Type} (h : String → Option α) (f : String) (v : α) : String → Option α :=
  fun x => if x = f then some v else h x

def sempty : String → Bool := fun _ => false

def supd (s : String → Bool) (m : String) : String → Bool :=
  fun x => if x = m then true else s x

inductive TVal : Type
  | tstr (v : String) (px : Option Int)
  | thash (h : String → Option String)
  | tset (s : String → Bool)
  | tlist (l : List String)
  | tzset (z : String → Option Int)

def Store : Type := String → Option TVal

def emptyStore : Store := fun _ => none

/-- Single-key write actions, one per target-store primitive used by the
migrator: `client.set` (with optional `px`), `client.hset`, `client.sadd`,
`client.rpush`, `client.zadd`. -/
inductive Act : Type
  | aset (v : String) (px : Option Int)
  | ahset (f v : String)
  | asadd (m : String)
  | arpush (v : String)
  | azadd (m : String) (sc : Int)

/-- Effect of one write action on the value stored at its key.  A wrong-type
write leaves the value unchanged (it fails with an exception instead). -/
def stepK (st : Option TVal) : Act → Option TVal
  | .aset v px => some (.tstr v px)
  | .ahset f v =>
    match st with
    | none => some (.thash (fupd fempty f v))
    | some (.thash h) => some (.thash (fupd h f v))
    | some other => some other
  | .asadd m =>
    match st with
    | none => some (.tset (supd sempty m))
    | some (.tset s) => some (.tset (supd s m))
    | some other => some other
  | .arpush v =>
    match st with
    | none => some (.tlist [v])
    | some (.tlist l) => some (.tlist (l ++ [v]))
    | some other => some other
  | .azadd m sc =>
    match st with
    | none => some (.tzset (fupd fempty m sc))
    | some (.tzset z) => some (.tzset (fupd z m sc))
    | some other => some other

/-- Whether a write action is compatible with the value currently stored at
its key (`client.set` overwrites any kind; the member-level primitives
require an absent key or a value of their own kind). -/
def compatK (st : Option TVal) : Act → Bool
  | .aset _ _ => true
  | .ahset _ _ =>
    match st with
    | none => true
    | some (.thash _) => true
    | some _ => false
  | .asadd _ =>
    match st with
    | none => true
    | some (.tset _) => true
    | some _ => false
  | .arpush _ =>
    match st with
    | none => true
    | some (.tlist _) => true
    | some _ => false
  | .azadd _ _ =>
    match st with
    | none => true
    | some (.tzset _) => true
    | some _ => false

structure Write : Type where
  key : String
  act : Act

def applyW (s : Store) (w : Write) : Store :=
  fun k => if k = w.key then stepK (s k) w.act else s k

def applyWs (s : Store) (ws : List Write) : Store := ws.foldl applyW s

def applyK (st : Option TVal) (l : List Act) : Option TVal := l.foldl stepK st

/-- Projection used to state concrete facts about hash contents. -/
def tgetHashField (st : Option TVal) (f : String) : Option String :=
  match st with
  | some (.thash h) => h f
  | _ => none

/-- Projection used to state concrete facts about list contents. -/
def tgetList (st : Option TVal) : Option (List String) :=
  match st with
  | some (.tlist l) => some l
  | _ => none

/-! ### Decoded entries and the parser's callback event stream

Modelled from the spec: the external RDB parser (rdbtools, absent from src/)
produces per spec section 3 a stream of `RdbEntry` values {database index, key,
DecodedValue, optional absolute expiry in milliseconds}, grouped by database
(a select-database boundary precedes each database's entries), and drives the
callback: one `set` call per string entry, and one `hset`/`sadd`/`rpush`/
`zadd` call per hash field / set member / list element / sorted-set pair, in
decoded order. -/

inductive RVal : Type
  | rstr (v : String)
  | rhash (fs : List (String × String))
  | rset (ms : List String)
  | rlist (es : List String)
  | rzset (ms : List (String × Int))

structure Entry : Type where
  key : String
  val : RVal
  expiry : Option Int

/-- Callback events, one constructor per callback method of
`ElastiCacheMigrator` that the claims exercise. -/
inductive Event : Type
  | startDb (n : Nat)
  | eset (key v : String) (expiry : Option Int)
  | ehset (key f v : String)
  | esadd (key m : String)
  | erpush (key v : String)
  | ezadd (key m : String) (sc : Int)

def entryEvents (e : Entry) : List Event :=
  match e.val with
  | .rstr v => [.eset e.key v e.expiry]
  | .rhash fs => fs.map (fun p => .ehset e.key p.1 p.2)
  | .rset ms => ms.map (fun m => .esadd e.key m)
  | .rlist vs => vs.map (fun v => .erpush e.key v)
  | .rzset ms => ms.map (fun p => .ezadd e.key p.1 p.2)

def entriesEvents : List Entry → List Event
  | [] => []
  | e :: t => entryEvents e ++ entriesEvents t

/-- An input is the decoded dump: databases in file order, each with its
entries; the parser emits the database boundary, then the entries' events. -/
def eventsOf : List (Nat × List Entry) → List Event
  | [] => []
  | (db, es) :: t => .startDb db :: (entriesEvents es ++ eventsOf t)

/-! ### The migrator state machine (from src/migrate.py) -/

structure Config : Type where
  dryRun : Bool
  prefixDbs : Bool

/-- Counters of `stats['by_type']`, one field per type-name key the code
uses ('string', 'hash', 'set', 'list', 'zset'); an absent dict key is
represented as count 0. -/
structure ByType : Type where
  string : Nat
  hash : Nat
  set : Nat
  list : Nat
  zset : Nat
  deriving DecidableEq

def bt0 : ByType := ⟨0, 0, 0, 0, 0⟩

inductive TKind : Type
  | string
  | hash
  | set
  | list
  | zset

/-- The `_track_type` method: increment the counter for one type name. -/
def btInc : TKind → ByType → ByType
  | .string, b => { b with string := b.string + 1 }
  | .hash, b => { b with hash := b.hash + 1 }
  | .set, b => { b with set := b.set + 1 }
  | .list, b => { b with list := b.list + 1 }
  | .zset, b => { b with zset := b.zset + 1 }

/-- The `self.stats` dictionary.  `by_db` is an insertion-ordered association
list, mirroring the Python dict keyed by database number. -/
structure MStats : Type where
  totalKeys : Nat
  byType : ByType
  byDb : List (Nat × Nat)
  errors : Nat
  deriving DecidableEq

def alook (n : Nat) : List (Nat × Nat) → Option Nat
  | [] => none
  | p :: t => if p.1 = n then some p.2 else alook n t

/-- The `start_database` initialization: `if db_number not in by_db:
by_db[db_number] = 0` (dict insertion appends). -/
def byDbInit (n : Nat) (l : List (Nat × Nat)) : List (Nat × Nat) :=
  if (alook n l).isSome then l else l ++ [(n, 0)]

/-- The `by_db[current_db] += 1` update of `_set_key` (the entry is always
present, since the parser emits the database boundary first). -/
def byDbInc (n : Nat) (l : List (Nat × Nat)) : List (Nat × Nat) :=
  l.map (fun p => if p.1 = n then (p.1, p.2 + 1) else p)

/-- The `_get_key_name` method: prefix keys of non-zero databases with
"db{N}:" when prefixing is enabled. -/
def keyName (pf : Bool) (db : Nat) (key : String) : String :=
  if pf ∧ db ≠ 0 then "db" ++ Nat.repr db ++ ":" ++ key else key

/-- The expiry guard of `_set_key`: `if expiry and expiry > 0:` pass
`px=expiry`, else no TTL.  Note the raw expiry value is forwarded as `px`. -/
def pxOf : Option Int → Option Int
  | none => none
  | some t => if 0 < t then some t else none

/-- Migrator runtime state: the stats dict, `self.current_db`, the target
store contents, and the index of the next write attempt (used to consult the
failure oracle that models transient write exceptions). -/
structure RunSt : Type where
  stats : MStats
  currentDb : Nat
  store : Store
  widx : Nat

/-- Common body of the `hset`/`sadd`/`rpush`/`zadd` callbacks, which are
textually identical in the source up to type name and client call:
track the type, compute the target key, return early on dry-run, then
attempt the write, counting an error on failure and never touching
`total_keys`/`by_db`. -/
def aggStep (cfg : Config) (oracle : Nat → Bool) (rs : RunSt) (kind : TKind)
    (key : String) (a : Act) : RunSt :=
  let rs1 := { rs with stats.byType := btInc kind rs.stats.byType }
  let tk := keyName cfg.prefixDbs rs1.currentDb key
  if cfg.dryRun then rs1
  else
    let ok := oracle rs1.widx && compatK (rs1.store tk) a
    let rs2 := { rs1 with widx := rs1.widx + 1 }
    if ok then { rs2 with store := applyW rs2.store ⟨tk, a⟩ }
    else { rs2 with stats.errors := rs2.stats.errors + 1 }

/-- One callback invocation.  `.eset` is `set` + `_set_key`: track 'string',
compute the target key, return early on dry-run; otherwise attempt
`client.set` and only on success increment `total_keys` and
`by_db[current_db]`; on an exception only `errors` grows. -/
def stepEv (cfg : Config) (oracle : Nat → Bool) (rs : RunSt) : Event → RunSt
  | .startDb n => { rs with currentDb := n, stats.byDb := byDbInit n rs.stats.byDb }
  | .eset key v expiry =>
    let rs1 := { rs with stats.byType := btInc .string rs.stats.byType }
    let tk := keyName cfg.prefixDbs rs1.currentDb key
    if cfg.dryRun then rs1
    else
      let ok := oracle rs1.widx
      let rs2 := { rs1 with widx := rs1.widx + 1 }
      if ok then
        { rs2 with
          store := applyW rs2.store ⟨tk, .aset v (pxOf expiry)⟩,
          stats.totalKeys := rs2.stats.totalKeys + 1,
          stats.byDb := byDbInc rs2.currentDb rs2.stats.byDb }
      else { rs2 with stats.errors := rs2.stats.errors + 1 }
  | .ehset key f v => aggStep cfg oracle rs .hash key (.ahset f v)
  | .esadd key m => aggStep cfg oracle rs .set key (.asadd m)
  | .erpush key v => aggStep cfg oracle rs .list key (.arpush v)
  | .ezadd key m sc => aggStep cfg oracle rs .zset key (.azadd m sc)

def runEvents (cfg : Config) (oracle : Nat → Bool) (rs : RunSt) (evs : List Event) : RunSt :=
  evs.foldl (stepEv cfg oracle) rs

def initRun (s0 : Store) : RunSt := ⟨⟨0, bt0, [], 0⟩, 0, s0, 0⟩

def runInput (cfg : Config) (oracle : Nat → Bool) (s0 : Store)
    (input : List (Nat × List Entry)) : RunSt :=
  runEvents cfg oracle (initRun s0) (eventsOf input)

/-- Oracle under which every attempted write succeeds. -/
def oraTrue : Nat → Bool := fun _ => true

/-- Oracle under which every attempted write raises a transient failure. -/
def oraFalse : Nat → Bool := fun _ => false

/-- Modelled from the spec: the fatal parse failures (spec section 7)
raised by the external parser. -/
inductive ParseErr : Type
  | truncatedInput
  | checksumMismatch
  | unsupportedVersion
  | badMagic
  deriving DecidableEq

/-- The `migrate_rdb` control flow around `parser.parse`: a parse failure is
logged and re-raised (propagates to the caller); a successful parse drives
the full callback run, whose write errors are only counted. -/
def migrateRdb (cfg : Config) (oracle : Nat → Bool) (s0 : Store) :
    Except ParseErr (List (Nat × List Entry)) → Except ParseErr RunSt
  | .error e => .error e
  | .ok input => .ok (runInput cfg oracle s0 input)

/-! ### Claims C3 and C10: the key namespacing policy -/

/-- C3: with prefixing enabled, `_get_key_name` leaves database-0 keys
unchanged and maps a key of non-zero database `db` to
"db" ++ repr db ++ ":" ++ key; in particular target_key(0,"foo") = "foo"
and target_key(3,"foo") = "db3:foo". -/
theorem claim_C3 :
    (∀ key : String, keyName true 0 key = key) ∧
    (∀ (db : Nat) (key : String), db ≠ 0 →
      keyName true db key = "db" ++ Nat.repr db ++ ":" ++ key) ∧
    keyName true 0 "foo" = "foo" ∧ keyName true 3 "foo" = "db3:foo" := by
  refine ⟨fun key => ?_, fun db key h => ?_, rfl, rfl⟩
  · simp [keyName]
  · simp [keyName, h]

theorem claim_C3_witness :
    (3 : Nat) ≠ 0 ∧ keyName true 3 "bar" = "db3:bar" :=
  ⟨by decide, claim_C3.2.1 3 "bar" (by decide)⟩

/-- C10: with prefixing disabled, `_get_key_name` returns every key
unchanged for every database index, so equal key names from different
source databases collide on the same target key. -/
theorem claim_C10 :
    (∀ (db : Nat) (key : String), keyName false db key = key) ∧
    (∀ (d1 d2 : Nat) (key : String), keyName false d1 key = keyName false d2 key) := by
  constructor
  · intro db key
    simp [keyName]
  · intro d1 d2 key
    simp [keyName]

/-! ### Claim C7: the two-database scenario -/

def c7Input : List (Nat × List Entry) :=
  [(0, [⟨"a", .rstr "1", none⟩]), (1, [⟨"a", .rstr "2", none⟩])]

/-- C7: replaying the input {db 0: "a"→"1", db 1: "a"→"2"} live with all
writes succeeding stores target keys "a" and "db1:a" (both present) and
ends with total_keys = 2 and by_db = {0: 1, 1: 1}. -/
theorem claim_C7 :
    (runInput ⟨false, true⟩ oraTrue emptyStore c7Input).store "a" = some (.tstr "1" none) ∧
    (runInput ⟨false, true⟩ oraTrue emptyStore c7Input).store "db1:a" = some (.tstr "2" none) ∧
    (runInput ⟨false, true⟩ oraTrue emptyStore c7Input).stats.totalKeys = 2 ∧
    (runInput ⟨false, true⟩ oraTrue emptyStore c7Input).stats.byDb = [(0, 1), (1, 1)] :=
  ⟨rfl, rfl, rfl, rfl⟩

/-! ### Claim C5: the expiry forwarded to the single string write -/

def c5Input : List (Nat × List Entry) :=
  [(0, [⟨"a", .rstr "1", some 1700000000000⟩,
        ⟨"b", .rstr "2", some (-5)⟩,
        ⟨"c", .rstr "3", none⟩])]

/-- C5: the write issued for a string entry carrying absolute expiry
1700000000000 ms passes `px = 1700000000000` — the absolute timestamp
forwarded unchanged, with no relative-to-now conversion anywhere in the
code — while a non-positive or absent expiry yields a write with no TTL. -/
theorem claim_C5 :
    (runInput ⟨false, true⟩ oraTrue emptyStore c5Input).store "a"
      = some (.tstr "1" (some 1700000000000)) ∧
    (runInput ⟨false, true⟩ oraTrue emptyStore c5Input).store "b"
      = some (.tstr "2" none) ∧
    (runInput ⟨false, true⟩ oraTrue emptyStore c5Input).store "c"
      = some (.tstr "3" none) :=
  ⟨rfl, rfl, rfl⟩

/-! ### Claim C6: fatal parse failures versus per-entry write errors -/

def c6Input : List (Nat × List Entry) := [(0, [⟨"k", .rstr "v", none⟩])]

/-- C6: a TruncatedInput / ChecksumMismatch / unsupported-version failure of
the parser propagates out of `migrate_rdb` unchanged (the run aborts with
that error), while write failures never abort: a run whose writes all fail
still completes, returning the full statistics with the error counted. -/
theorem claim_C6 :
    (∀ (e : ParseErr) (cfg : Config) (oracle : Nat → Bool) (s0 : Store),
      migrateRdb cfg oracle s0 (.error e) = .error e) ∧
    (∀ (cfg : Config) (oracle : Nat → Bool) (s0 : Store)
      (input : List (Nat × List Entry)),
      migrateRdb cfg oracle s0 (.ok input) = .ok (runInput cfg oracle s0 input)) ∧
    migrateRdb ⟨false, true⟩ oraFalse emptyStore (.ok c6Input)
      = .ok (runInput ⟨false, true⟩ oraFalse emptyStore c6Input) ∧
    (runInput ⟨false, true⟩ oraFalse emptyStore c6Input).stats.errors = 1 :=
  ⟨fun _ _ _ _ => rfl, fun _ _ _ _ => rfl, rfl, rfl⟩

/-! ### Counterexamples to claims C1 and C2 as stated -/

def c1Input : List (Nat × List Entry) := [(0, [⟨"a", .rstr "1", none⟩])]

/-- C1 counterexample: on the single-string-entry input, the dry-run
statistics differ from those of a live run in which every write succeeds
(dry-run leaves total_keys = 0 and by_db[0] = 0; live reaches 1 and 1). -/
theorem claim_C1_cx :
    (runInput ⟨true, true⟩ oraTrue emptyStore c1Input).stats ≠
    (runInput ⟨false, true⟩ oraTrue emptyStore c1Input).stats := by
  decide

def c2Input : List (Nat × List Entry) := [(0, [⟨"h", .rhash [("f1", "v1")], none⟩])]

/-- C2 counterexample: a hash entry whose (primary) field write succeeds —
the field is present in the target and no error was counted — still leaves
total_keys = 0 and by_db[0] = 0: aggregate entries never increment the
top-level key counters. -/
theorem claim_C2_cx :
    (runInput ⟨false, true⟩ oraTrue emptyStore c2Input).stats.totalKeys = 0 ∧
    alook 0 (runInput ⟨false, true⟩ oraTrue emptyStore c2Input).stats.byDb = some 0 ∧
    (runInput ⟨false, true⟩ oraTrue emptyStore c2Input).stats.errors = 0 ∧
    tgetHashField ((runInput ⟨false, true⟩ oraTrue emptyStore c2Input).store "h") "f1"
      = some "v1" :=
  ⟨rfl, rfl, rfl, rfl⟩

/-! ### Claims C2 (amended) and C4: counter updates per write -/

theorem alook_byDbInc (n : Nat) (l : List (Nat × Nat)) :
    alook n (byDbInc n l) = (alook n l).map (fun c => c + 1) := by
  induction l with
  | nil => rfl
  | cons p t ih =>
    by_cases h : p.1 = n
    · simp [byDbInc, alook, h]
    · simpa [byDbInc, alook, h] using ih

/-- C2 (amended): in live mode, a string entry whose `client.set` succeeds
increments `total_keys` and `by_db[current_db]` by exactly one; a hash
field / set member / list element / sorted-set pair write never changes
`total_keys` or `by_db`, whether it succeeds or fails — aggregate entries
leave the top-level key counters untouched. -/
theorem claim_C2
    (cfg : Config) (oracle : Nat → Bool) (rs : RunSt) (k v : String) (e : Option Int)
    (f w m x z : String) (sc : Int)
    (hdry : cfg.dryRun = false) (hok : oracle rs.widx = true) :
    ((stepEv cfg oracle rs (.eset k v e)).stats.totalKeys = rs.stats.totalKeys + 1 ∧
      alook rs.currentDb (stepEv cfg oracle rs (.eset k v e)).stats.byDb
        = (alook rs.currentDb rs.stats.byDb).map (fun c => c + 1)) ∧
    ((stepEv cfg oracle rs (.ehset k f w)).stats.totalKeys = rs.stats.totalKeys ∧
      (stepEv cfg oracle rs (.ehset k f w)).stats.byDb = rs.stats.byDb) ∧
    ((stepEv cfg oracle rs (.esadd k m)).stats.totalKeys = rs.stats.totalKeys ∧
      (stepEv cfg oracle rs (.esadd k m)).stats.byDb = rs.stats.byDb) ∧
    ((stepEv cfg oracle rs (.erpush k x)).stats.totalKeys = rs.stats.totalKeys ∧
      (stepEv cfg oracle rs (.erpush k x)).stats.byDb = rs.stats.byDb) ∧
    ((stepEv cfg oracle rs (.ezadd k z sc)).stats.totalKeys = rs.stats.totalKeys ∧
      (stepEv cfg oracle rs (.ezadd k z sc)).stats.byDb = rs.stats.byDb) := by
  refine ⟨⟨?_, ?_⟩, ?_, ?_, ?_, ?_⟩
  · simp [stepEv, hdry, hok]
  · simp [stepEv, hdry, hok, alook_byDbInc]
  all_goals
    simp only [stepEv, aggStep, hdry, if_false, Bool.false_eq_true]
    split <;> simp

def rsW : RunSt := ⟨⟨0, bt0, [(0, 0)], 0⟩, 0, emptyStore, 0⟩

theorem claim_C2_witness :
    (stepEv ⟨false, true⟩ oraTrue rsW (.eset "k" "v" none)).stats.totalKeys
      = rsW.stats.totalKeys + 1 :=
  (claim_C2 ⟨false, true⟩ oraTrue rsW "k" "v" none "f" "w" "m" "x" "z" 3 rfl rfl).1.1

/-- C4: in live mode, a write that raises (any of the five write kinds)
increments the error counter by exactly one and leaves the target store
unchanged, and the run simply continues with the remaining events — the
failure aborts neither the containing entry nor the run. -/
theorem claim_C4
    (cfg : Config) (oracle : Nat → Bool) (rs : RunSt) (rest : List Event)
    (k v : String) (e : Option Int) (f w m x z : String) (sc : Int)
    (hdry : cfg.dryRun = false) (hfail : oracle rs.widx = false) :
    ((stepEv cfg oracle rs (.eset k v e)).stats.errors = rs.stats.errors + 1 ∧
      (stepEv cfg oracle rs (.eset k v e)).store = rs.store) ∧
    ((stepEv cfg oracle rs (.ehset k f w)).stats.errors = rs.stats.errors + 1 ∧
      (stepEv cfg oracle rs (.ehset k f w)).store = rs.store) ∧
    ((stepEv cfg oracle rs (.esadd k m)).stats.errors = rs.stats.errors + 1 ∧
      (stepEv cfg oracle rs (.esadd k m)).store = rs.store) ∧
    ((stepEv cfg oracle rs (.erpush k x)).stats.errors = rs.stats.errors + 1 ∧
      (stepEv cfg oracle rs (.erpush k x)).store = rs.store) ∧
    ((stepEv cfg oracle rs (.ezadd k z sc)).stats.errors = rs.stats.errors + 1 ∧
      (stepEv cfg oracle rs (.ezadd k z sc)).store = rs.store) ∧
    (∀ ev : Event, runEvents cfg oracle rs (ev :: rest)
      = runEvents cfg oracle (stepEv cfg oracle rs ev) rest) := by
  refine ⟨?_, ?_, ?_, ?_, ?_, fun ev => rfl⟩
  all_goals simp [stepEv, aggStep, hdry, hfail]

theorem claim_C4_witness :
    (stepEv ⟨false, true⟩ oraFalse rsW (.ehset "k" "f" "w")).stats.errors
      = rsW.stats.errors + 1 :=
  (claim_C4 ⟨false, true⟩ oraFalse rsW [] "k" "v" none "f" "w" "m" "x" "z" 3 rfl rfl).2.1.1

/-! ### Type-counter accounting (used by C9 and C1) -/

/-- The type-counter increment performed by each callback: every callback
except the database boundary calls `_track_type` exactly once, before any
dry-run check or write attempt. -/
def btIncEv : Event → ByType → ByType
  | .startDb _, b => b
  | .eset _ _ _, b => btInc .string b
  | .ehset _ _ _, b => btInc .hash b
  | .esadd _ _, b => btInc .set b
  | .erpush _ _, b => btInc .list b
  | .ezadd _ _ _, b => btInc .zset b

def evsBT (b : ByType) (evs : List Event) : ByType :=
  evs.foldl (fun b e => btIncEv e b) b

theorem aggStep_byType (cfg : Config) (oracle : Nat → Bool) (rs : RunSt)
    (kind : TKind) (key : String) (a : Act) :
    (aggStep cfg oracle rs kind key a).stats.byType = btInc kind rs.stats.byType := by
  simp only [aggStep]
  split
  · rfl
  · split <;> rfl

theorem stepEv_byType (cfg : Config) (oracle : Nat → Bool) (rs : RunSt) (ev : Event) :
    (stepEv cfg oracle rs ev).stats.byType = btIncEv ev rs.stats.byType := by
  cases ev with
  | startDb n => rfl
  | eset k v e =>
    simp only [stepEv, btIncEv]
    split
    · rfl
    · split <;> rfl
  | ehset k f v => exact aggStep_byType ..
  | esadd k m => exact aggStep_byType ..
  | erpush k v => exact aggStep_byType ..
  | ezadd k m sc => exact aggStep_byType ..

theorem runEvents_byType (cfg : Config) (oracle : Nat → Bool) :
    ∀ (evs : List Event) (rs : RunSt),
      (runEvents cfg oracle rs evs).stats.byType = evsBT rs.stats.byType evs := by
  intro evs
  induction evs with
  | nil => intro rs; rfl
  | cons ev t ih =>
    intro rs
    have h1 : runEvents cfg oracle rs (ev :: t)
        = runEvents cfg oracle (stepEv cfg oracle rs ev) t := rfl
    rw [h1, ih]
    have h2 : evsBT rs.stats.byType (ev :: t)
        = evsBT (btIncEv ev rs.stats.byType) t := rfl
    rw [h2, stepEv_byType]

/-! ### Claim C9: by_type counts member-level callback invocations -/

def btAdd (a b : ByType) : ByType :=
  ⟨a.string + b.string, a.hash + b.hash, a.set + b.set, a.list + b.list, a.zset + b.zset⟩

/-- Reference count for one entry: a string entry contributes one 'string'
tick; an aggregate entry contributes one tick of its kind per member. -/
def entryBT (e : Entry) : ByType :=
  match e.val with
  | .rstr _ => ⟨1, 0, 0, 0, 0⟩
  | .rhash fs => ⟨0, fs.length, 0, 0, 0⟩
  | .rset ms => ⟨0, 0, ms.length, 0, 0⟩
  | .rlist vs => ⟨0, 0, 0, vs.length, 0⟩
  | .rzset ms => ⟨0, 0, 0, 0, ms.length⟩

def entriesBT : List Entry → ByType
  | [] => bt0
  | e :: t => btAdd (entryBT e) (entriesBT t)

def inputBT : List (Nat × List Entry) → ByType
  | [] => bt0
  | g :: t => btAdd (entriesBT g.2) (inputBT t)

theorem btAdd_bt0 (b : ByType) : btAdd b bt0 = b := by
  cases b
  simp [btAdd, bt0]

theorem bt0_btAdd (b : ByType) : btAdd bt0 b = b := by
  cases b
  simp [btAdd, bt0]

theorem btAdd_assoc (a b c : ByType) : btAdd (btAdd a b) c = btAdd a (btAdd b c) := by
  cases a
  cases b
  cases c
  simp [btAdd]
  omega

theorem evsBT_append (b : ByType) (l1 l2 : List Event) :
    evsBT b (l1 ++ l2) = evsBT (evsBT b l1) l2 := by
  simp [evsBT, List.foldl_append]

theorem evsBT_hash (key : String) (fs : List (String × String)) :
    ∀ b : ByType, evsBT b (fs.map (fun p => Event.ehset key p.1 p.2))
      = btAdd b ⟨0, fs.length, 0, 0, 0⟩ := by
  induction fs with
  | nil =>
    intro b
    cases b
    simp [evsBT, btAdd]
  | cons p t ih =>
    intro b
    have h1 : evsBT b ((p :: t).map (fun p => Event.ehset key p.1 p.2))
        = evsBT (btInc .hash b) (t.map (fun p => Event.ehset key p.1 p.2)) := rfl
    rw [h1, ih]
    cases b
    simp [btAdd, btInc]
    omega

theorem evsBT_set (key : String) (ms : List String) :
    ∀ b : ByType, evsBT b (ms.map (fun m => Event.esadd key m))
      = btAdd b ⟨0, 0, ms.length, 0, 0⟩ := by
  induction ms with
  | nil =>
    intro b
    cases b
    simp [evsBT, btAdd]
  | cons m t ih =>
    intro b
    have h1 : evsBT b ((m :: t).map (fun m => Event.esadd key m))
        = evsBT (btInc .set b) (t.map (fun m => Event.esadd key m)) := rfl
    rw [h1, ih]
    cases b
    simp [btAdd, btInc]
    omega

theorem evsBT_list (key : String) (vs : List String) :
    ∀ b : ByType, evsBT b (vs.map (fun v => Event.erpush key v))
      = btAdd b ⟨0, 0, 0, vs.length, 0⟩ := by
  induction vs with
  | nil =>
    intro b
    cases b
    simp [evsBT, btAdd]
  | cons v t ih =>
    intro b
    have h1 : evsBT b ((v :: t).map (fun v => Event.erpush key v))
        = evsBT (btInc .list b) (t.map (fun v => Event.erpush key v)) := rfl
    rw [h1, ih]
    cases b
    simp [btAdd, btInc]
    omega

theorem evsBT_zset (key : String) (ms : List (String × Int)) :
    ∀ b : ByType, evsBT b (ms.map (fun p => Event.ezadd key p.1 p.2))
      = btAdd b ⟨0, 0, 0, 0, ms.length⟩ := by
  induction ms with
  | nil =>
    intro b
    cases b
    simp [evsBT, btAdd]
  | cons p t ih =>
    intro b
    have h1 : evsBT b ((p :: t).map (fun p => Event.ezadd key p.1 p.2))
        = evsBT (btInc .zset b) (t.map (fun p => Event.ezadd key p.1 p.2)) := rfl
    rw [h1, ih]
    cases b
    simp [btAdd, btInc]
    omega

theorem evsBT_entry (b : ByType) (e : Entry) :
    evsBT b (entryEvents e) = btAdd b (entryBT e) := by
  rcases e with ⟨key, val, exp⟩
  cases val with
  | rstr v =>
    cases b
    simp [entryEvents, entryBT, evsBT, btIncEv, btInc, btAdd]
  | rhash fs => simpa [entryEvents, entryBT] using evsBT_hash key fs b
  | rset ms => simpa [entryEvents, entryBT] using evsBT_set key ms b
  | rlist vs => simpa [entryEvents, entryBT] using evsBT_list key vs b
  | rzset ms => simpa [entryEvents, entryBT] using evsBT_zset key ms b

theorem evsBT_entries (es : List Entry) :
    ∀ b : ByType, evsBT b (entriesEvents es) = btAdd b (entriesBT es) := by
  induction es with
  | nil =>
    intro b
    simp [entriesEvents, entriesBT, evsBT, btAdd_bt0]
  | cons e t ih =>
    intro b
    have h1 : entriesEvents (e :: t) = entryEvents e ++ entriesEvents t := rfl
    rw [h1, evsBT_append, evsBT_entry, ih, entriesBT, ← btAdd_assoc]

theorem evsBT_eventsOf (input : List (Nat × List Entry)) :
    ∀ b : ByType, evsBT b (eventsOf input) = btAdd b (inputBT input) := by
  induction input with
  | nil =>
    intro b
    simp [eventsOf, inputBT, evsBT, btAdd_bt0]
  | cons g t ih =>
    intro b
    rcases g with ⟨db, es⟩
    have h1 : evsBT b (eventsOf ((db, es) :: t))
        = evsBT b (entriesEvents es ++ eventsOf t) := rfl
    rw [h1, evsBT_append, evsBT_entries, ih, btAdd_assoc]
    have h2 : inputBT ((db, es) :: t) = btAdd (entriesBT es) (inputBT t) := rfl
    rw [h2]

/-- C9: for every configuration (dry-run or live) and every pattern of write
failures, the final `by_type` counters equal the member-level reference
count: one 'string' tick per string entry, and one tick per hash field, set
member, list element, and sorted-set pair — so a hash with F fields
contributes F to by_type['hash'], unconditionally. -/
theorem claim_C9 (cfg : Config) (oracle : Nat → Bool) (s0 : Store)
    (input : List (Nat × List Entry)) :
    (runInput cfg oracle s0 input).stats.byType = inputBT input := by
  have h1 : (runInput cfg oracle s0 input).stats.byType
      = evsBT bt0 (eventsOf input) := runEvents_byType cfg oracle (eventsOf input) (initRun s0)
  rw [h1, evsBT_eventsOf, bt0_btAdd]

theorem claim_C9_witness :
    (runInput ⟨true, true⟩ oraFalse emptyStore
        [(0, [⟨"h", .rhash [("a", "1"), ("b", "2"), ("c", "3")], none⟩])]).stats.byType
      = inputBT [(0, [⟨"h", .rhash [("a", "1"), ("b", "2"), ("c", "3")], none⟩])] :=
  claim_C9 ⟨true, true⟩ oraFalse emptyStore
    [(0, [⟨"h", .rhash [("a", "1"), ("b", "2"), ("c", "3")], none⟩])]

/-! ### Claim C1 (amended): what dry-run does and does not share with live -/

def allZeroDb (l : List (Nat × Nat)) : Bool := l.all (fun p => p.2 == 0)

theorem allZeroDb_byDbInit (n : Nat) (l : List (Nat × Nat)) (h : allZeroDb l = true) :
    allZeroDb (byDbInit n l) = true := by
  unfold byDbInit
  split
  · exact h
  · simp [allZeroDb, List.all_append] at h ⊢
    exact h

theorem stepEv_dry (cfg : Config) (oracle : Nat → Bool) (rs : RunSt) (ev : Event)
    (hdry : cfg.dryRun = true) :
    (stepEv cfg oracle rs ev).store = rs.store ∧
    (stepEv cfg oracle rs ev).widx = rs.widx ∧
    (stepEv cfg oracle rs ev).stats.totalKeys = rs.stats.totalKeys ∧
    (stepEv cfg oracle rs ev).stats.errors = rs.stats.errors ∧
    (allZeroDb rs.stats.byDb = true → allZeroDb (stepEv cfg oracle rs ev).stats.byDb = true) := by
  cases ev with
  | startDb n =>
    refine ⟨rfl, rfl, rfl, rfl, fun h => ?_⟩
    simpa [stepEv] using allZeroDb_byDbInit n rs.stats.byDb h
  | eset k v e =>
    refine ⟨?_, ?_, ?_, ?_, fun h => ?_⟩ <;> (simp [stepEv, hdry]; try exact h)
  | ehset k f v =>
    refine ⟨?_, ?_, ?_, ?_, fun h => ?_⟩ <;> (simp [stepEv, aggStep, hdry]; try exact h)
  | esadd k m =>
    refine ⟨?_, ?_, ?_, ?_, fun h => ?_⟩ <;> (simp [stepEv, aggStep, hdry]; try exact h)
  | erpush k v =>
    refine ⟨?_, ?_, ?_, ?_, fun h => ?_⟩ <;> (simp [stepEv, aggStep, hdry]; try exact h)
  | ezadd k m sc =>
    refine ⟨?_, ?_, ?_, ?_, fun h => ?_⟩ <;> (simp [stepEv, aggStep, hdry]; try exact h)

theorem runEvents_dry (cfg : Config) (oracle : Nat → Bool) (hdry : cfg.dryRun = true) :
    ∀ (evs : List Event) (rs : RunSt),
      (runEvents cfg oracle rs evs).store = rs.store ∧
      (runEvents cfg oracle rs evs).widx = rs.widx ∧
      (runEvents cfg oracle rs evs).stats.totalKeys = rs.stats.totalKeys ∧
      (runEvents cfg oracle rs evs).stats.errors = rs.stats.errors ∧
      (allZeroDb rs.stats.byDb = true →
        allZeroDb (runEvents cfg oracle rs evs).stats.byDb = true) := by
  intro evs
  induction evs with
  | nil => exact fun rs => ⟨rfl, rfl, rfl, rfl, fun h => h⟩
  | cons ev t ih =>
    intro rs
    rcases stepEv_dry cfg oracle rs ev hdry with ⟨s1, s2, s3, s4, s5⟩
    rcases ih (stepEv cfg oracle rs ev) with ⟨i1, i2, i3, i4, i5⟩
    have hr : runEvents cfg oracle rs (ev :: t)
        = runEvents cfg oracle (stepEv cfg oracle rs ev) t := rfl
    rw [hr]
    exact ⟨i1.trans s1, i2.trans s2, i3.trans s3, i4.trans s4, fun h => i5 (s5 h)⟩

/-- C1 (amended): a dry-run issues zero target-store write operations (the
store is untouched and no write is even attempted), and its `by_type`
counters are identical to those of a live run over the same input; but its
`total_keys` and `errors` stay 0 and every `by_db` count stays 0, so the
full statistics differ from a fully-successful live run whenever that live
run writes at least one string entry. -/
theorem claim_C1 (pf : Bool) (oracle : Nat → Bool) (s0 : Store)
    (input : List (Nat × List Entry)) :
    (runInput ⟨true, pf⟩ oracle s0 input).store = s0 ∧
    (runInput ⟨true, pf⟩ oracle s0 input).widx = 0 ∧
    (runInput ⟨true, pf⟩ oracle s0 input).stats.byType
      = (runInput ⟨false, pf⟩ oracle s0 input).stats.byType ∧
    (runInput ⟨true, pf⟩ oracle s0 input).stats.totalKeys = 0 ∧
    (runInput ⟨true, pf⟩ oracle s0 input).stats.errors = 0 ∧
    allZeroDb (runInput ⟨true, pf⟩ oracle s0 input).stats.byDb = true := by
  rcases runEvents_dry ⟨true, pf⟩ oracle rfl (eventsOf input) (initRun s0) with
    ⟨d1, d2, d3, d4, d5⟩
  have hA : (runInput ⟨true, pf⟩ oracle s0 input).stats.byType
      = evsBT bt0 (eventsOf input) :=
    runEvents_byType ⟨true, pf⟩ oracle (eventsOf input) (initRun s0)
  have hB : (runInput ⟨false, pf⟩ oracle s0 input).stats.byType
      = evsBT bt0 (eventsOf input) :=
    runEvents_byType ⟨false, pf⟩ oracle (eventsOf input) (initRun s0)
  exact ⟨d1, d2, hA.trans hB.symm, d3, d4, d5 rfl⟩

/-! ### Claim C8: replay idempotence, single-key analysis

The store effect of a write sequence decomposes per target key; on one key
an action list is idempotent from the empty start as long as it contains no
list-append: a trailing `client.set` wipes everything after it errors out
the other kinds, and homogeneous runs of field/member/score writes are
absorbed on re-application. -/

def actNoPush : Act → Bool
  | .arpush _ => false
  | _ => true

def noListA (l : List Act) : Bool := l.all actNoPush

def lastSet? : List Act → Option (String × Option Int)
  | [] => none
  | a :: t =>
    match lastSet? t with
    | some p => some p
    | none =>
      match a with
      | .aset v px => some (v, px)
      | _ => none

theorem lastSet_tail (a : Act) (t : List Act) (h : lastSet? (a :: t) = none) :
    lastSet? t = none := by
  cases hl : lastSet? t with
  | none => rfl
  | some p => simp [lastSet?, hl] at h

theorem noListA_tail (a : Act) (t : List Act) (h : noListA (a :: t) = true) :
    noListA t = true := by
  simp [noListA, List.all_cons] at h
  simpa [noListA] using h.2

def fmerge {α : Type} (h : String → Option α) (ps : List (String × α)) : String → Option α :=
  ps.foldl (fun g p => fupd g p.1 p.2) h

def flast {α : Type} : List (String × α) → String → Option α
  | [], _ => none
  | p :: t, x =>
    match flast t x with
    | some w => some w
    | none => if x = p.1 then some p.2 else none

theorem fmerge_apply {α : Type} :
    ∀ (ps : List (String × α)) (h : String → Option α) (x : String),
      fmerge h ps x = match flast ps x with | some w => some w | none => h x := by
  intro ps
  induction ps with
  | nil => intro h x; rfl
  | cons p t ih =>
    intro h x
    have h1 : fmerge h (p :: t) = fmerge (fupd h p.1 p.2) t := rfl
    rw [h1, ih]
    cases hf : flast t x with
    | some w => simp [flast, hf]
    | none =>
      simp only [flast, hf]
      by_cases hx : x = p.1
      · simp [fupd, hx]
      · simp [fupd, hx]

theorem fmerge_absorb {α : Type} (h : String → Option α) (ps : List (String × α)) :
    fmerge (fmerge h ps) ps = fmerge h ps := by
  funext x
  have h1 := fmerge_apply ps (fmerge h ps) x
  have h2 := fmerge_apply ps h x
  rw [h1, h2]
  cases flast ps x <;> rfl

def smerge (s : String → Bool) (ms : List String) : String → Bool := ms.foldl supd s

def smem : List String → String → Bool
  | [], _ => false
  | m :: t, x => if x = m then true else smem t x

theorem smerge_apply :
    ∀ (ms : List String) (s : String → Bool) (x : String),
      smerge s ms x = (smem ms x || s x) := by
  intro ms
  induction ms with
  | nil => intro s x; rfl
  | cons m t ih =>
    intro s x
    have h1 : smerge s (m :: t) = smerge (supd s m) t := rfl
    rw [h1, ih]
    by_cases hx : x = m
    · simp [smem, supd, hx]
    · simp [smem, supd, hx]

theorem smerge_absorb (s : String → Bool) (ms : List String) :
    smerge (smerge s ms) ms = smerge s ms := by
  funext x
  rw [smerge_apply, smerge_apply]
  cases smem ms x <;> simp

def hfieldsA : List Act → List (String × String)
  | [] => []
  | .ahset f v :: t => (f, v) :: hfieldsA t
  | _ :: t => hfieldsA t

def smembersA : List Act → List String
  | [] => []
  | .asadd m :: t => m :: smembersA t
  | _ :: t => smembersA t

def zpairsA : List Act → List (String × Int)
  | [] => []
  | .azadd m sc :: t => (m, sc) :: zpairsA t
  | _ :: t => zpairsA t

theorem applyK_str :
    ∀ (l : List Act), noListA l = true → lastSet? l = none →
      ∀ (v : String) (px : Option Int),
        applyK (some (.tstr v px)) l = some (.tstr v px) := by
  intro l
  induction l with
  | nil => intro _ _ v px; rfl
  | cons a t ih =>
    intro hnl hns v px
    have hnt := noListA_tail a t hnl
    have hlt := lastSet_tail a t hns
    cases a with
    | aset w qx => simp [lastSet?, hlt] at hns
    | ahset f w => exact ih hnt hlt v px
    | asadd m => exact ih hnt hlt v px
    | arpush w => simp [noListA, actNoPush] at hnl
    | azadd m sc => exact ih hnt hlt v px

theorem applyK_lastSet :
    ∀ (l : List Act) (v : String) (px : Option Int),
      noListA l = true → lastSet? l = some (v, px) →
      ∀ st : Option TVal, applyK st l = some (.tstr v px) := by
  intro l
  induction l with
  | nil => intro v px _ h; simp [lastSet?] at h
  | cons a t ih =>
    intro v px hnl hls st
    have hnt := noListA_tail a t hnl
    cases hlt : lastSet? t with
    | some p =>
      have hp : p = (v, px) := by
        simp [lastSet?, hlt] at hls
        exact hls
      have h1 : applyK st (a :: t) = applyK (stepK st a) t := rfl
      rw [h1]
      exact ih v px hnt (hp ▸ hlt) (stepK st a)
    | none =>
      cases a with
      | aset w qx =>
        have hvp : w = v ∧ qx = px := by
          simp [lastSet?, hlt] at hls
          exact hls
        rcases hvp with ⟨h1, h2⟩
        subst h1
        subst h2
        exact applyK_str t hnt hlt w qx
      | ahset f w => simp [lastSet?, hlt] at hls
      | asadd m => simp [lastSet?, hlt] at hls
      | arpush w => simp [lastSet?, hlt] at hls
      | azadd m sc => simp [lastSet?, hlt] at hls

theorem applyK_hash_run :
    ∀ (l : List Act), noListA l = true → lastSet? l = none →
      ∀ h : String → Option String,
        applyK (some (.thash h)) l = some (.thash (fmerge h (hfieldsA l))) := by
  intro l
  induction l with
  | nil => intro _ _ h; rfl
  | cons a t ih =>
    intro hnl hns h
    have hnt := noListA_tail a t hnl
    have hlt := lastSet_tail a t hns
    cases a with
    | aset v px => simp [lastSet?, hlt] at hns
    | ahset f v => exact ih hnt hlt (fupd h f v)
    | asadd m => exact ih hnt hlt h
    | arpush v => simp [noListA, actNoPush] at hnl
    | azadd m sc => exact ih hnt hlt h

theorem applyK_set_run :
    ∀ (l : List Act), noListA l = true → lastSet? l = none →
      ∀ s : String → Bool,
        applyK (some (.tset s)) l = some (.tset (smerge s (smembersA l))) := by
  intro l
  induction l with
  | nil => intro _ _ s; rfl
  | cons a t ih =>
    intro hnl hns s
    have hnt := noListA_tail a t hnl
    have hlt := lastSet_tail a t hns
    cases a with
    | aset v px => simp [lastSet?, hlt] at hns
    | ahset f v => exact ih hnt hlt s
    | asadd m => exact ih hnt hlt (supd s m)
    | arpush v => simp [noListA, actNoPush] at hnl
    | azadd m sc => exact ih hnt hlt s

theorem applyK_zset_run :
    ∀ (l : List Act), noListA l = true → lastSet? l = none →
      ∀ z : String → Option Int,
        applyK (some (.tzset z)) l = some (.tzset (fmerge z (zpairsA l))) := by
  intro l
  induction l with
  | nil => intro _ _ z; rfl
  | cons a t ih =>
    intro hnl hns z
    have hnt := noListA_tail a t hnl
    have hlt := lastSet_tail a t hns
    cases a with
    | aset v px => simp [lastSet?, hlt] at hns
    | ahset f v => exact ih hnt hlt z
    | asadd m => exact ih hnt hlt z
    | arpush v => simp [noListA, actNoPush] at hnl
    | azadd m sc => exact ih hnt hlt (fupd z m sc)

/-- On a single key, a push-free action list applied twice from the empty
start equals it applied once. -/
theorem applyK_idem (l : List Act) (hnl : noListA l = true) :
    applyK (applyK none l) l = applyK none l := by
  cases hls : lastSet? l with
  | some p =>
    rcases p with ⟨v, px⟩
    rw [applyK_lastSet l v px hnl hls, applyK_lastSet l v px hnl hls]
  | none =>
    cases l with
    | nil => rfl
    | cons a t =>
      have hnt := noListA_tail a t hnl
      have hlt := lastSet_tail a t hls
      cases a with
      | aset v px => simp [lastSet?, hlt] at hls
      | ahset f v =>
        have hr1 : applyK none (Act.ahset f v :: t)
            = some (.thash (fmerge (fupd fempty f v) (hfieldsA t))) :=
          applyK_hash_run t hnt hlt (fupd fempty f v)
        rw [hr1]
        have hr2 : applyK (some (.thash (fmerge (fupd fempty f v) (hfieldsA t))))
              (Act.ahset f v :: t)
            = some (.thash (fmerge (fupd (fmerge (fupd fempty f v) (hfieldsA t)) f v)
                (hfieldsA t))) :=
          applyK_hash_run t hnt hlt (fupd (fmerge (fupd fempty f v) (hfieldsA t)) f v)
        rw [hr2]
        have habs : fmerge (fupd (fmerge (fupd fempty f v) (hfieldsA t)) f v) (hfieldsA t)
            = fmerge (fmerge fempty ((f, v) :: hfieldsA t)) ((f, v) :: hfieldsA t) := rfl
        rw [habs, fmerge_absorb]
        rfl
      | asadd m =>
        have hr1 : applyK none (Act.asadd m :: t)
            = some (.tset (smerge (supd sempty m) (smembersA t))) :=
          applyK_set_run t hnt hlt (supd sempty m)
        rw [hr1]
        have hr2 : applyK (some (.tset (smerge (supd sempty m) (smembersA t))))
              (Act.asadd m :: t)
            = some (.tset (smerge (supd (smerge (supd sempty m) (smembersA t)) m)
                (smembersA t))) :=
          applyK_set_run t hnt hlt (supd (smerge (supd sempty m) (smembersA t)) m)
        rw [hr2]
        have habs : smerge (supd (smerge (supd sempty m) (smembersA t)) m) (smembersA t)
            = smerge (smerge sempty (m :: smembersA t)) (m :: smembersA t) := rfl
        rw [habs, smerge_absorb]
        rfl
      | arpush v => simp [noListA, actNoPush] at hnl
      | azadd m sc =>
        have hr1 : applyK none (Act.azadd m sc :: t)
            = some (.tzset (fmerge (fupd fempty m sc) (zpairsA t))) :=
          applyK_zset_run t hnt hlt (fupd fempty m sc)
        rw [hr1]
        have hr2 : applyK (some (.tzset (fmerge (fupd fempty m sc) (zpairsA t))))
              (Act.azadd m sc :: t)
            = some (.tzset (fmerge (fupd (fmerge (fupd fempty m sc) (zpairsA t)) m sc)
                (zpairsA t))) :=
          applyK_zset_run t hnt hlt (fupd (fmerge (fupd fempty m sc) (zpairsA t)) m sc)
        rw [hr2]
        have habs : fmerge (fupd (fmerge (fupd fempty m sc) (zpairsA t)) m sc) (zpairsA t)
            = fmerge (fmerge fempty ((m, sc) :: zpairsA t)) ((m, sc) :: zpairsA t) := rfl
        rw [habs, fmerge_absorb]
        rfl

/-! ### Claim C8: from the live run to a flat write sequence -/

def actsFor (k : String) : List Write → List Act
  | [] => []
  | w :: t => if w.key = k then w.act :: actsFor k t else actsFor k t

theorem applyWs_proj :
    ∀ (ws : List Write) (s : Store) (k : String),
      applyWs s ws k = applyK (s k) (actsFor k ws) := by
  intro ws
  induction ws with
  | nil => intro s k; rfl
  | cons w t ih =>
    intro s k
    have h1 : applyWs s (w :: t) = applyWs (applyW s w) t := rfl
    rw [h1, ih]
    by_cases hk : w.key = k
    · have h2 : actsFor k (w :: t) = w.act :: actsFor k t := by simp [actsFor, hk]
      have h3 : applyW s w k = stepK (s k) w.act := by simp [applyW, hk.symm]
      rw [h2, h3]
      rfl
    · have h2 : actsFor k (w :: t) = actsFor k t := by simp [actsFor, hk]
      have hk2 : ¬(k = w.key) := fun h => hk h.symm
      have h3 : applyW s w k = s k := by simp [applyW, hk2]
      rw [h2, h3]

theorem stepK_not_compat (st : Option TVal) (a : Act) (h : compatK st a = false) :
    stepK st a = st := by
  cases a with
  | aset v px => simp [compatK] at h
  | ahset f v =>
    match st with
    | none => simp [compatK] at h
    | some (.thash g) => simp [compatK] at h
    | some (.tstr v px) => rfl
    | some (.tset s) => rfl
    | some (.tlist l) => rfl
    | some (.tzset z) => rfl
  | asadd m =>
    match st with
    | none => simp [compatK] at h
    | some (.tset s) => simp [compatK] at h
    | some (.tstr v px) => rfl
    | some (.thash g) => rfl
    | some (.tlist l) => rfl
    | some (.tzset z) => rfl
  | arpush v =>
    match st with
    | none => simp [compatK] at h
    | some (.tlist l) => simp [compatK] at h
    | some (.tstr v px) => rfl
    | some (.thash g) => rfl
    | some (.tset s) => rfl
    | some (.tzset z) => rfl
  | azadd m sc =>
    match st with
    | none => simp [compatK] at h
    | some (.tzset z) => simp [compatK] at h
    | some (.tstr v px) => rfl
    | some (.thash g) => rfl
    | some (.tset s) => rfl
    | some (.tlist l) => rfl

theorem applyW_not_compat (s : Store) (w : Write)
    (h : compatK (s w.key) w.act = false) : applyW s w = s := by
  funext k
  by_cases hk : k = w.key
  · subst hk
    simp [applyW, stepK_not_compat _ _ h]
  · simp [applyW, hk]

/-- Target-key-resolved write sequence a live run issues: the current
database index is threaded through the boundary events exactly as
`self.current_db` is. -/
def writesOf (pf : Bool) : Nat → List Event → List Write
  | _, [] => []
  | _, .startDb n :: t => writesOf pf n t
  | db, .eset k v e :: t => ⟨keyName pf db k, .aset v (pxOf e)⟩ :: writesOf pf db t
  | db, .ehset k f v :: t => ⟨keyName pf db k, .ahset f v⟩ :: writesOf pf db t
  | db, .esadd k m :: t => ⟨keyName pf db k, .asadd m⟩ :: writesOf pf db t
  | db, .erpush k v :: t => ⟨keyName pf db k, .arpush v⟩ :: writesOf pf db t
  | db, .ezadd k m sc :: t => ⟨keyName pf db k, .azadd m sc⟩ :: writesOf pf db t

theorem aggStep_currentDb (cfg : Config) (oracle : Nat → Bool) (rs : RunSt)
    (kind : TKind) (key : String) (a : Act) :
    (aggStep cfg oracle rs kind key a).currentDb = rs.currentDb := by
  simp only [aggStep]
  split
  · rfl
  · split <;> rfl

theorem runEvents_store (pf : Bool) :
    ∀ (evs : List Event) (rs : RunSt),
      (runEvents ⟨false, pf⟩ oraTrue rs evs).store
        = applyWs rs.store (writesOf pf rs.currentDb evs) := by
  intro evs
  induction evs with
  | nil => intro rs; rfl
  | cons ev t ih =>
    intro rs
    have hr : runEvents ⟨false, pf⟩ oraTrue rs (ev :: t)
        = runEvents ⟨false, pf⟩ oraTrue (stepEv ⟨false, pf⟩ oraTrue rs ev) t := rfl
    rw [hr, ih]
    cases ev with
    | startDb n => rfl
    | eset k v e => rfl
    | ehset k f v =>
      have hdb : (stepEv ⟨false, pf⟩ oraTrue rs (Event.ehset k f v)).currentDb
          = rs.currentDb :=
        aggStep_currentDb ⟨false, pf⟩ oraTrue rs .hash k (Act.ahset f v)
      rw [hdb]
      by_cases hc : compatK (rs.store (keyName pf rs.currentDb k)) (Act.ahset f v) = true
      · have hs : (stepEv ⟨false, pf⟩ oraTrue rs (.ehset k f v)).store
            = applyW rs.store ⟨keyName pf rs.currentDb k, .ahset f v⟩ := by
          simp [stepEv, aggStep, oraTrue, hc]
        rw [hs]
        rfl
      · have hcf : compatK (rs.store (keyName pf rs.currentDb k)) (Act.ahset f v) = false :=
          Bool.eq_false_iff.mpr hc
        have hs : (stepEv ⟨false, pf⟩ oraTrue rs (.ehset k f v)).store = rs.store := by
          simp [stepEv, aggStep, oraTrue, hcf]
        rw [hs]
        have hnc : applyW rs.store ⟨keyName pf rs.currentDb k, .ahset f v⟩ = rs.store :=
          applyW_not_compat rs.store ⟨keyName pf rs.currentDb k, .ahset f v⟩ hcf
        have h2 : applyWs rs.store
              (writesOf pf rs.currentDb (Event.ehset k f v :: t))
            = applyWs (applyW rs.store ⟨keyName pf rs.currentDb k, .ahset f v⟩)
              (writesOf pf rs.currentDb t) := rfl
        rw [h2, hnc]
    | esadd k m =>
      have hdb : (stepEv ⟨false, pf⟩ oraTrue rs (Event.esadd k m)).currentDb
          = rs.currentDb :=
        aggStep_currentDb ⟨false, pf⟩ oraTrue rs .set k (Act.asadd m)
      rw [hdb]
      by_cases hc : compatK (rs.store (keyName pf rs.currentDb k)) (Act.asadd m) = true
      · have hs : (stepEv ⟨false, pf⟩ oraTrue rs (.esadd k m)).store
            = applyW rs.store ⟨keyName pf rs.currentDb k, .asadd m⟩ := by
          simp [stepEv, aggStep, oraTrue, hc]
        rw [hs]
        rfl
      · have hcf : compatK (rs.store (keyName pf rs.currentDb k)) (Act.asadd m) = false :=
          Bool.eq_false_iff.mpr hc
        have hs : (stepEv ⟨false, pf⟩ oraTrue rs (.esadd k m)).store = rs.store := by
          simp [stepEv, aggStep, oraTrue, hcf]
        rw [hs]
        have hnc : applyW rs.store ⟨keyName pf rs.currentDb k, .asadd m⟩ = rs.store :=
          applyW_not_compat rs.store ⟨keyName pf rs.currentDb k, .asadd m⟩ hcf
        have h2 : applyWs rs.store
              (writesOf pf rs.currentDb (Event.esadd k m :: t))
            = applyWs (applyW rs.store ⟨keyName pf rs.currentDb k, .asadd m⟩)
              (writesOf pf rs.currentDb t) := rfl
        rw [h2, hnc]
    | erpush k v =>
      have hdb : (stepEv ⟨false, pf⟩ oraTrue rs (Event.erpush k v)).currentDb
          = rs.currentDb :=
        aggStep_currentDb ⟨false, pf⟩ oraTrue rs .list k (Act.arpush v)
      rw [hdb]
      by_cases hc : compatK (rs.store (keyName pf rs.currentDb k)) (Act.arpush v) = true
      · have hs : (stepEv ⟨false, pf⟩ oraTrue rs (.erpush k v)).store
            = applyW rs.store ⟨keyName pf rs.currentDb k, .arpush v⟩ := by
          simp [stepEv, aggStep, oraTrue, hc]
        rw [hs]
        rfl
      · have hcf : compatK (rs.store (keyName pf rs.currentDb k)) (Act.arpush v) = false :=
          Bool.eq_false_iff.mpr hc
        have hs : (stepEv ⟨false, pf⟩ oraTrue rs (.erpush k v)).store = rs.store := by
          simp [stepEv, aggStep, oraTrue, hcf]
        rw [hs]
        have hnc : applyW rs.store ⟨keyName pf rs.currentDb k, .arpush v⟩ = rs.store :=
          applyW_not_compat rs.store ⟨keyName pf rs.currentDb k, .arpush v⟩ hcf
        have h2 : applyWs rs.store
              (writesOf pf rs.currentDb (Event.erpush k v :: t))
            = applyWs (applyW rs.store ⟨keyName pf rs.currentDb k, .arpush v⟩)
              (writesOf pf rs.currentDb t) := rfl
        rw [h2, hnc]
    | ezadd k m sc =>
      have hdb : (stepEv ⟨false, pf⟩ oraTrue rs (Event.ezadd k m sc)).currentDb
          = rs.currentDb :=
        aggStep_currentDb ⟨false, pf⟩ oraTrue rs .zset k (Act.azadd m sc)
      rw [hdb]
      by_cases hc : compatK (rs.store (keyName pf rs.currentDb k)) (Act.azadd m sc) = true
      · have hs : (stepEv ⟨false, pf⟩ oraTrue rs (.ezadd k m sc)).store
            = applyW rs.store ⟨keyName pf rs.currentDb k, .azadd m sc⟩ := by
          simp [stepEv, aggStep, oraTrue, hc]
        rw [hs]
        rfl
      · have hcf : compatK (rs.store (keyName pf rs.currentDb k)) (Act.azadd m sc) = false :=
          Bool.eq_false_iff.mpr hc
        have hs : (stepEv ⟨false, pf⟩ oraTrue rs (.ezadd k m sc)).store = rs.store := by
          simp [stepEv, aggStep, oraTrue, hcf]
        rw [hs]
        have hnc : applyW rs.store ⟨keyName pf rs.currentDb k, .azadd m sc⟩ = rs.store :=
          applyW_not_compat rs.store ⟨keyName pf rs.currentDb k, .azadd m sc⟩ hcf
        have h2 : applyWs rs.store
              (writesOf pf rs.currentDb (Event.ezadd k m sc :: t))
            = applyWs (applyW rs.store ⟨keyName pf rs.currentDb k, .azadd m sc⟩)
              (writesOf pf rs.currentDb t) := rfl
        rw [h2, hnc]

/-- The store a live all-writes-attempted run leaves behind is the flat
write sequence applied to the initial store. -/
theorem runInput_store (pf : Bool) (s0 : Store) (input : List (Nat × List Entry)) :
    (runInput ⟨false, pf⟩ oraTrue s0 input).store
      = applyWs s0 (writesOf pf 0 (eventsOf input)) :=
  runEvents_store pf (eventsOf input) (initRun s0)

/-! ### Claim C8: idempotence for inputs without list entries -/

def evNoPush : Event → Bool
  | .erpush _ _ => false
  | _ => true

def entryNoList (e : Entry) : Bool :=
  match e.val with
  | .rlist _ => false
  | _ => true

def noListInput (input : List (Nat × List Entry)) : Bool :=
  input.all (fun g => g.2.all entryNoList)

theorem all_map_const {α β : Type} (g : α → β) (p : β → Bool)
    (hp : ∀ a, p (g a) = true) : ∀ l : List α, (l.map g).all p = true := by
  intro l
  induction l with
  | nil => rfl
  | cons a t ih =>
    rw [List.map_cons, List.all_cons, hp a, ih]
    rfl

theorem entryEvents_noPush (e : Entry) (h : entryNoList e = true) :
    (entryEvents e).all evNoPush = true := by
  rcases e with ⟨k, val, exp⟩
  cases val with
  | rstr v => rfl
  | rhash fs => exact all_map_const (fun p => Event.ehset k p.1 p.2) evNoPush (fun p => rfl) fs
  | rset ms => exact all_map_const (fun m => Event.esadd k m) evNoPush (fun m => rfl) ms
  | rlist vs => simp [entryNoList] at h
  | rzset ms => exact all_map_const (fun p => Event.ezadd k p.1 p.2) evNoPush (fun p => rfl) ms

theorem entriesEvents_noPush :
    ∀ es : List Entry, es.all entryNoList = true →
      (entriesEvents es).all evNoPush = true := by
  intro es
  induction es with
  | nil => intro _; rfl
  | cons e t ih =>
    intro h
    rw [List.all_cons, Bool.and_eq_true] at h
    have h1 : entriesEvents (e :: t) = entryEvents e ++ entriesEvents t := rfl
    rw [h1, List.all_append, Bool.and_eq_true]
    exact ⟨entryEvents_noPush e h.1, ih h.2⟩

theorem eventsOf_noPush :
    ∀ input : List (Nat × List Entry), noListInput input = true →
      (eventsOf input).all evNoPush = true := by
  intro input
  induction input with
  | nil => intro _; rfl
  | cons g t ih =>
    intro h
    rw [noListInput, List.all_cons, Bool.and_eq_true] at h
    rcases g with ⟨db, es⟩
    have h1 : eventsOf ((db, es) :: t) = .startDb db :: (entriesEvents es ++ eventsOf t) := rfl
    rw [h1, List.all_cons, List.all_append]
    simp only [Bool.and_eq_true]
    exact ⟨rfl, entriesEvents_noPush es h.1, ih h.2⟩

theorem writesOf_noPush (pf : Bool) :
    ∀ (evs : List Event) (db : Nat), evs.all evNoPush = true →
      (writesOf pf db evs).all (fun w => actNoPush w.act) = true := by
  intro evs
  induction evs with
  | nil => intro db _; rfl
  | cons ev t ih =>
    intro db h
    rw [List.all_cons, Bool.and_eq_true] at h
    cases ev with
    | startDb n => exact ih n h.2
    | eset k v e =>
      have h1 : writesOf pf db (Event.eset k v e :: t)
          = ⟨keyName pf db k, .aset v (pxOf e)⟩ :: writesOf pf db t := rfl
      rw [h1, List.all_cons, Bool.and_eq_true]
      exact ⟨rfl, ih db h.2⟩
    | ehset k f v =>
      have h1 : writesOf pf db (Event.ehset k f v :: t)
          = ⟨keyName pf db k, .ahset f v⟩ :: writesOf pf db t := rfl
      rw [h1, List.all_cons, Bool.and_eq_true]
      exact ⟨rfl, ih db h.2⟩
    | esadd k m =>
      have h1 : writesOf pf db (Event.esadd k m :: t)
          = ⟨keyName pf db k, .asadd m⟩ :: writesOf pf db t := rfl
      rw [h1, List.all_cons, Bool.and_eq_true]
      exact ⟨rfl, ih db h.2⟩
    | erpush k v => simp [evNoPush] at h
    | ezadd k m sc =>
      have h1 : writesOf pf db (Event.ezadd k m sc :: t)
          = ⟨keyName pf db k, .azadd m sc⟩ :: writesOf pf db t := rfl
      rw [h1, List.all_cons, Bool.and_eq_true]
      exact ⟨rfl, ih db h.2⟩

theorem actsFor_noList (k : String) :
    ∀ ws : List Write, ws.all (fun w => actNoPush w.act) = true →
      noListA (actsFor k ws) = true := by
  intro ws
  induction ws with
  | nil => intro _; rfl
  | cons w t ih =>
    intro h
    rw [List.all_cons, Bool.and_eq_true] at h
    by_cases hk : w.key = k
    · have h1 : actsFor k (w :: t) = w.act :: actsFor k t := by simp [actsFor, hk]
      rw [h1, noListA, List.all_cons, Bool.and_eq_true]
      exact ⟨h.1, ih h.2⟩
    · have h1 : actsFor k (w :: t) = actsFor k t := by simp [actsFor, hk]
      rw [h1]
      exact ih h.2

theorem applyWs_idem (ws : List Write)
    (h : ws.all (fun w => actNoPush w.act) = true) :
    applyWs (applyWs emptyStore ws) ws = applyWs emptyStore ws := by
  funext k
  rw [applyWs_proj, applyWs_proj]
  exact applyK_idem (actsFor k ws) (actsFor_noList k ws h)

def c8ListInput : List (Nat × List Entry) := [(0, [⟨"l", .rlist ["x"], none⟩])]

/-- C8: replaying an input containing only string, hash, set and sorted-set
entries twice in live mode against an initially empty target leaves exactly
the store of a single replay; replaying an input with a list entry twice
does not, because list-append appends again. -/
theorem claim_C8 :
    (∀ (pf : Bool) (input : List (Nat × List Entry)), noListInput input = true →
      (runInput ⟨false, pf⟩ oraTrue
          ((runInput ⟨false, pf⟩ oraTrue emptyStore input).store) input).store
        = (runInput ⟨false, pf⟩ oraTrue emptyStore input).store) ∧
    (runInput ⟨false, true⟩ oraTrue
        ((runInput ⟨false, true⟩ oraTrue emptyStore c8ListInput).store) c8ListInput).store
      ≠ (runInput ⟨false, true⟩ oraTrue emptyStore c8ListInput).store := by
  constructor
  · intro pf input h
    have hw : (writesOf pf 0 (eventsOf input)).all (fun w => actNoPush w.act) = true :=
      writesOf_noPush pf (eventsOf input) 0 (eventsOf_noPush input h)
    simp only [runInput_store]
    exact applyWs_idem (writesOf pf 0 (eventsOf input)) hw
  · intro heq
    have h := congrFun heq "l"
    have hL : (runInput ⟨false, true⟩ oraTrue
        ((runInput ⟨false, true⟩ oraTrue emptyStore c8ListInput).store) c8ListInput).store "l"
        = some (.tlist ["x", "x"]) := rfl
    have hR : (runInput ⟨false, true⟩ oraTrue emptyStore c8ListInput).store "l"
        = some (.tlist ["x"]) := rfl
    rw [hL, hR] at h
    simp at h

def c8WInput : List (Nat × List Entry) :=
  [(0, [⟨"s", .rstr "1", none⟩, ⟨"h", .rhash [("f", "v")], none⟩])]

theorem claim_C8_witness :
    noListInput c8WInput = true ∧
    (runInput ⟨false, true⟩ oraTrue
        ((runInput ⟨false, true⟩ oraTrue emptyStore c8WInput).store) c8WInput).store
      = (runInput ⟨false, true⟩ oraTrue emptyStore c8WInput).store :=
  ⟨rfl, claim_C8.1 true c8WInput rfl⟩

end RdbMig
